import Mathlib

/-!
Formal model of the RadialGauge component (src/src/RadialGauge.tsx).

Numeric values are modelled as rationals (`ℚ`); the JavaScript arithmetic in
the claims under study is exact at the inputs concerned, except for the
degenerate-domain division, which is modelled separately with explicit
IEEE-style NaN/Infinity values (`JSNumber`).  JavaScript's stable
`Array.prototype.sort` with comparator `(a, b) => a.value - b.value` is
modelled by Mathlib's stable `List.insertionSort` on the same key.
-/

namespace RadialGauge

/-- Threshold entry, source interface `SegmentRange { value, color }`. -/
structure SegmentRange where
  value : ℚ
  color : String
deriving DecidableEq

/-- Ring segment, source interface `ReferenceRingSegment { start, end, color }`
(the `end` field is named `stop` because `end` is a Lean keyword). -/
structure ReferenceRingSegment where
  start : ℚ
  stop : ℚ
  color : String
deriving DecidableEq

/-- Loop body of `convertThresholdsToSegments` (source lines 134-151): walk the
sorted thresholds with a running cursor; a threshold whose clamped normalized
value exceeds the cursor emits a segment and advances the cursor, otherwise it
is absorbed.  Returns the emitted segments and the final cursor. -/
def segLoop (mn mx : ℚ) : List SegmentRange → ℚ → List ReferenceRingSegment × ℚ
  | [], currentStart => ([], currentStart)
  | t :: ts, currentStart =>
    let normalizedEnd := max 0 (min 1 ((t.value - mn) / (mx - mn)))
    if normalizedEnd > currentStart then
      let r := segLoop mn mx ts normalizedEnd
      (⟨currentStart, normalizedEnd, t.color⟩ :: r.1, r.2)
    else
      segLoop mn mx ts currentStart

/-- Color of the final gap-filling segment (source lines 155-156):
`sortedThresholds[sortedThresholds.length - 1]?.color || "limegreen"`.
JavaScript `||` treats the empty string as falsy, hence the `= ""` test. -/
def lastColor (sorted : List SegmentRange) : String :=
  match sorted.getLast? with
  | some t => if t.color = "" then "limegreen" else t.color
  | none => "limegreen"

/-- Source function `convertThresholdsToSegments` (lines 117-165).  The
non-array input throw is unrepresentable (a Lean list is always an array);
the empty list returns the single default full-range segment; otherwise the
thresholds are stably sorted by value and folded by `segLoop`, and a final
segment up to 1 is appended when the cursor stopped short of 1. -/
def convertThresholdsToSegments (thresholds : List SegmentRange) (mn mx : ℚ) :
    List ReferenceRingSegment :=
  match thresholds with
  | [] => [⟨0, 1, "limegreen"⟩]
  | _ :: _ =>
    let sorted := List.insertionSort (fun a b => a.value ≤ b.value) thresholds
    let r := segLoop mn mx sorted 0
    if r.2 < 1 then r.1 ++ [⟨r.2, 1, lastColor sorted⟩] else r.1

/-- Source expression `Math.max(0, Math.min(1, (animationValue - min) / (max - min)))`
(lines 324-327), in exact rational arithmetic (valid whenever `max ≠ min`). -/
def normalizedValue (v mn mx : ℚ) : ℚ :=
  max 0 (min 1 ((v - mn) / (mx - mn)))

/-- Source function `degreesToRadians` (lines 65-67): `(degrees - 90) * (Math.PI / 180)`.
`Math.PI` is abstracted as a parameter `piA`; the properties proved below hold
for every value of it. -/
def degreesToRadians (piA degrees : ℚ) : ℚ :=
  (degrees - 90) * (piA / 180)

/-- Source expression `startRad + normalizedValue * (endRad - startRad)` (line 328). -/
def valueAngle (v mn mx startRad endRad : ℚ) : ℚ :=
  startRad + normalizedValue v mn mx * (endRad - startRad)

/-- Predicate of the segment lookup (source lines 371-373):
`normalizedValue >= segment.start && normalizedValue <= segment.end`. -/
def segMatches (nv : ℚ) (s : ReferenceRingSegment) : Bool :=
  decide (s.start ≤ nv) && decide (nv ≤ s.stop)

/-- Source expression `thresholdSegments.find((segment) => ...)` (lines 371-373). -/
def findSegment (nv : ℚ) (segs : List ReferenceRingSegment) : Option ReferenceRingSegment :=
  segs.find? (segMatches nv)

/-- Source expression `thresholdSegments.find(...)?.color || "#999"` (lines 370-374).
JavaScript `||` treats the empty string as falsy, hence the `= ""` test. -/
def valueColor (nv : ℚ) (segs : List ReferenceRingSegment) : String :=
  match findSegment nv segs with
  | some s => if s.color = "" then "#999" else s.color
  | none => "#999"

/-- Source expression `transitionDuration > 0 ? tweenValue : value` (line 279). -/
def animationValue (transitionDuration tweenValue value : ℚ) : ℚ :=
  if 0 < transitionDuration then tweenValue else value

/-- Guard of the animation effect (line 282): `if (!transitionDuration) return;`.
The effect body (which calls `animate` and schedules frames) runs exactly when
`transitionDuration` is truthy, i.e. nonzero. -/
def tweenEffectRuns (transitionDuration : ℚ) : Bool :=
  !(decide (transitionDuration = 0))

/-- Source expression `Math.min(elapsed / transitionDuration, 1)` (line 289). -/
def tweenProgress (elapsed transitionDuration : ℚ) : ℚ :=
  min (elapsed / transitionDuration) 1

/-- d3-interpolate's number interpolator: `a * (1 - t) + b * t`. -/
def interpolateNumber (a b t : ℚ) : ℚ :=
  a * (1 - t) + b * t

/-- d3-ease `easeQuadOut`: `t * (2 - t)` (the component's default easing). -/
def easeQuadOut (t : ℚ) : ℚ :=
  t * (2 - t)

/-- One step of the `animate` callback's value computation (lines 288-292):
`interpolate(startValue, value)(easingFn(Math.min(elapsed / transitionDuration, 1)))`. -/
def tweenFrameValue (startValue target elapsed transitionDuration : ℚ)
    (easingFn : ℚ → ℚ) : ℚ :=
  interpolateNumber startValue target (easingFn (tweenProgress elapsed transitionDuration))

/-- Center-text expression (lines 524-526):
`value !== undefined && value !== null ? valueFormat(value) : "--"`.
An absent (`undefined` or `null`) value is modelled as `none`. -/
def centerText (value : Option ℚ) (valueFormat : ℚ → String) : String :=
  match value with
  | some v => valueFormat v
  | none => "--"

/-- JavaScript number with the special values needed to model the unguarded
division at `max == min`. -/
inductive JSNumber where
  | num (q : ℚ)
  | nan
  | posInf
  | negInf
deriving DecidableEq

/-- JavaScript division restricted to finite operands: division by zero yields
`Infinity`, `-Infinity` or `NaN` according to the sign of the numerator. -/
def jsDiv (a b : JSNumber) : JSNumber :=
  match a, b with
  | .num x, .num y =>
    if y ≠ 0 then .num (x / y)
    else if 0 < x then .posInf
    else if x < 0 then .negInf
    else .nan
  | _, _ => .nan

/-- JavaScript `Math.min`: `NaN` if either argument is `NaN`. -/
def jsMin (a b : JSNumber) : JSNumber :=
  match a, b with
  | .nan, _ => .nan
  | _, .nan => .nan
  | .negInf, _ => .negInf
  | _, .negInf => .negInf
  | .posInf, y => y
  | x, .posInf => x
  | .num x, .num y => .num (min x y)

/-- JavaScript `Math.max`: `NaN` if either argument is `NaN`. -/
def jsMax (a b : JSNumber) : JSNumber :=
  match a, b with
  | .nan, _ => .nan
  | _, .nan => .nan
  | .posInf, _ => .posInf
  | _, .posInf => .posInf
  | .negInf, y => y
  | x, .negInf => x
  | .num x, .num y => .num (max x y)

/-- Source expression `Math.max(0, Math.min(1, (animationValue - min) / (max - min)))`
(lines 324-327) under JavaScript float semantics, exact on the special values
produced when `max == min`. -/
def jsNormalizedValue (v mn mx : ℚ) : JSNumber :=
  jsMax (.num 0) (jsMin (.num 1) (jsDiv (.num (v - mn)) (.num (mx - mn))))

/-- Specification of a contiguous run of segments: `ChainFrom c segs c'` holds
when the segments in `segs` tile the interval from `c` to `c'` in order, each
with a strictly positive width. -/
def ChainFrom (c : ℚ) : List ReferenceRingSegment → ℚ → Prop
  | [], c' => c' = c
  | s :: rest, c' => s.start = c ∧ c < s.stop ∧ ChainFrom s.stop rest c'

lemma chainFrom_nil_iff (c c' : ℚ) : ChainFrom c [] c' ↔ c' = c := Iff.rfl

lemma chainFrom_cons_iff (c c' : ℚ) (s : ReferenceRingSegment)
    (rest : List ReferenceRingSegment) :
    ChainFrom c (s :: rest) c' ↔ s.start = c ∧ c < s.stop ∧ ChainFrom s.stop rest c' :=
  Iff.rfl

lemma chainFrom_append : ∀ (l : List ReferenceRingSegment)
    {l' : List ReferenceRingSegment} {c c' c'' : ℚ},
    ChainFrom c l c' → ChainFrom c' l' c'' → ChainFrom c (l ++ l') c''
  | [], l', c, c', c'', h, h' => by
    have hc : c' = c := h
    subst hc
    simpa using h'
  | s :: rest, l', c, c', c'', h, h' =>
    ⟨h.1, h.2.1, chainFrom_append rest h.2.2 h'⟩

lemma chainFrom_le : ∀ {l : List ReferenceRingSegment} {c c' : ℚ},
    ChainFrom c l c' → c ≤ c'
  | [], _, _, h => le_of_eq h.symm
  | _ :: _, _, _, h => le_trans (le_of_lt h.2.1) (chainFrom_le h.2.2)

lemma chainFrom_ne_nil {l : List ReferenceRingSegment} {c c' : ℚ}
    (h : ChainFrom c l c') (hne : c ≠ c') : l ≠ [] := by
  intro hl
  subst hl
  exact hne h.symm

lemma chainFrom_head_start {l : List ReferenceRingSegment} {c c' : ℚ}
    (h : ChainFrom c l c') : ∀ s, l.head? = some s → s.start = c := by
  cases l with
  | nil => intro s hs; simp at hs
  | cons s0 rest =>
    intro s hs
    simp at hs
    rw [← hs]
    exact h.1

lemma chainFrom_getLast_stop : ∀ {l : List ReferenceRingSegment} {c c' : ℚ},
    ChainFrom c l c' → ∀ s, l.getLast? = some s → s.stop = c'
  | [], _, _, _, s, hs => by simp at hs
  | [s0], c, c', h, s, hs => by
    simp at hs
    rw [← hs]
    exact h.2.2.symm
  | s0 :: s1 :: rest, c, c', h, s, hs => by
    rw [List.getLast?_cons_cons] at hs
    exact chainFrom_getLast_stop h.2.2 s hs

lemma chainFrom_mem_width : ∀ {l : List ReferenceRingSegment} {c c' : ℚ},
    ChainFrom c l c' → ∀ s ∈ l, s.start < s.stop
  | [], _, _, _, s, hs => absurd hs (List.not_mem_nil s)
  | s0 :: rest, c, c', h, s, hs => by
    rcases List.mem_cons.mp hs with rfl | hmem
    · rw [h.1]; exact h.2.1
    · exact chainFrom_mem_width h.2.2 s hmem

lemma chainFrom_adjacent : ∀ {l : List ReferenceRingSegment} {c c' : ℚ},
    ChainFrom c l c' → ∀ i, ∀ hi1 : i + 1 < l.length,
      (l.get ⟨i, Nat.lt_of_succ_lt hi1⟩).stop = (l.get ⟨i + 1, hi1⟩).start
  | [], _, _, _, i, hi1 => by simp at hi1
  | [s0], _, _, _, i, hi1 => by simp at hi1
  | s0 :: s1 :: rest, c, c', h, 0, hi1 => h.2.2.1.symm
  | s0 :: s1 :: rest, c, c', h, i + 1, hi1 =>
    chainFrom_adjacent h.2.2 i (by simpa using hi1)

lemma chainFrom_get_stop_gt : ∀ {l : List ReferenceRingSegment} {c c' : ℚ},
    ChainFrom c l c' → ∀ i, ∀ hi : i < l.length, c < (l.get ⟨i, hi⟩).stop
  | [], _, _, _, i, hi => by simp at hi
  | s0 :: rest, c, c', h, 0, hi => h.2.1
  | s0 :: rest, c, c', h, i + 1, hi =>
    lt_trans h.2.1 (chainFrom_get_stop_gt h.2.2 i (by simpa using hi))

lemma segLoop_chain (mn mx : ℚ) : ∀ (ts : List SegmentRange) (c : ℚ),
    ChainFrom c (segLoop mn mx ts c).1 (segLoop mn mx ts c).2 ∧
      ((segLoop mn mx ts c).2 = c ∨ (segLoop mn mx ts c).2 ≤ 1)
  | [], c => by simp [segLoop, chainFrom_nil_iff]
  | t :: ts, c => by
    have hle : max 0 (min 1 ((t.value - mn) / (mx - mn))) ≤ 1 :=
      max_le (by norm_num) (min_le_left _ _)
    by_cases hgt : max 0 (min 1 ((t.value - mn) / (mx - mn))) > c
    · have ih := segLoop_chain mn mx ts (max 0 (min 1 ((t.value - mn) / (mx - mn))))
      simp only [segLoop, if_pos hgt]
      refine ⟨⟨rfl, hgt, ih.1⟩, Or.inr ?_⟩
      rcases ih.2 with h | h
      · rw [h]; exact hle
      · exact h
    · have ih := segLoop_chain mn mx ts c
      simp only [segLoop, if_neg hgt]
      exact ih

lemma convert_chain (ts : List SegmentRange) (mn mx : ℚ) :
    ChainFrom 0 (convertThresholdsToSegments ts mn mx) 1 := by
  match ts with
  | [] =>
    simp only [convertThresholdsToSegments]
    exact ⟨rfl, by norm_num, rfl⟩
  | t :: ts' =>
    simp only [convertThresholdsToSegments]
    obtain ⟨hchain, hc⟩ :=
      segLoop_chain mn mx (List.insertionSort (fun a b => a.value ≤ b.value) (t :: ts')) 0
    by_cases hlt :
        (segLoop mn mx (List.insertionSort (fun a b => a.value ≤ b.value) (t :: ts')) 0).2 < 1
    · rw [if_pos hlt]
      exact chainFrom_append _ hchain ⟨rfl, hlt, rfl⟩
    · rw [if_neg hlt]
      have h1 :
          (segLoop mn mx (List.insertionSort (fun a b => a.value ≤ b.value) (t :: ts')) 0).2
            = 1 := by
        rcases hc with h | h
        · exfalso; rw [h] at hlt; norm_num at hlt
        · exact le_antisymm h (not_lt.mp hlt)
      rwa [h1] at hchain

lemma segMatches_true_iff (nv : ℚ) (s : ReferenceRingSegment) :
    segMatches nv s = true ↔ s.start ≤ nv ∧ nv ≤ s.stop := by
  simp [segMatches]

lemma chainFrom_findSegment_start {l : List ReferenceRingSegment} {c c' : ℚ}
    (h : ChainFrom c l c') (hne : l ≠ []) : findSegment c l = l.head? := by
  match l with
  | [] => exact absurd rfl hne
  | s :: rest =>
    have hm : segMatches c s = true :=
      (segMatches_true_iff c s).mpr ⟨le_of_eq h.1, le_of_lt h.2.1⟩
    simp [findSegment, List.find?_cons_of_pos _ hm]

lemma chainFrom_findSegment_one : ∀ {l : List ReferenceRingSegment} {c : ℚ},
    ChainFrom c l 1 → l ≠ [] → findSegment 1 l = l.getLast?
  | [], c, h, hne => absurd rfl hne
  | [s0], c, h, _ => by
    have hstop : s0.stop = 1 := h.2.2.symm
    have hm : segMatches 1 s0 = true := by
      refine (segMatches_true_iff 1 s0).mpr ⟨?_, le_of_eq hstop.symm⟩
      rw [h.1]
      exact le_of_lt (lt_of_lt_of_le h.2.1 (le_of_eq hstop))
    simp [findSegment, List.find?_cons_of_pos _ hm]
  | s0 :: s1 :: rest, c, h, _ => by
    have htail : ChainFrom s0.stop (s1 :: rest) 1 := h.2.2
    have hlt : s0.stop < 1 :=
      lt_of_lt_of_le htail.2.1 (chainFrom_le htail.2.2)
    have hm : ¬ segMatches 1 s0 = true := by
      rw [segMatches_true_iff]
      rintro ⟨-, h1⟩
      exact absurd h1 (not_le.mpr hlt)
    have ih := chainFrom_findSegment_one htail (by simp)
    simp only [findSegment] at ih ⊢
    rw [List.find?_cons_of_neg _ hm, ih, List.getLast?_cons_cons]

lemma chainFrom_findSegment_boundary : ∀ {l : List ReferenceRingSegment} {c c' : ℚ},
    ChainFrom c l c' → ∀ i, ∀ hi : i < l.length,
      findSegment ((l.get ⟨i, hi⟩).stop) l = some (l.get ⟨i, hi⟩)
  | [], _, _, _, i, hi => by simp at hi
  | s0 :: rest, c, c', h, 0, hi => by
    have hm : segMatches s0.stop s0 = true := by
      refine (segMatches_true_iff _ _).mpr ⟨?_, le_refl _⟩
      rw [h.1]
      exact le_of_lt h.2.1
    simp [findSegment, List.find?_cons_of_pos _ hm]
  | s0 :: rest, c, c', h, i + 1, hi => by
    have hi' : i < rest.length := by simpa using hi
    have hgt : s0.stop < (rest.get ⟨i, hi'⟩).stop :=
      chainFrom_get_stop_gt h.2.2 i hi'
    have hm : ¬ segMatches ((rest.get ⟨i, hi'⟩).stop) s0 = true := by
      rw [segMatches_true_iff]
      rintro ⟨-, h1⟩
      exact absurd h1 (not_le.mpr hgt)
    have ih := chainFrom_findSegment_boundary h.2.2 i hi'
    show findSegment ((rest.get ⟨i, hi'⟩).stop) (s0 :: rest) = some (rest.get ⟨i, hi'⟩)
    simp only [findSegment] at ih ⊢
    rw [List.find?_cons_of_neg _ hm, ih]

lemma chainFrom_find_exists : ∀ {l : List ReferenceRingSegment} {c c' nv : ℚ},
    ChainFrom c l c' → c ≤ nv → nv ≤ c' → c < c' →
      ∃ s, findSegment nv l = some s ∧ s ∈ l
  | [], c, c', nv, h, h1, h2, h3 => by
    have hc : c' = c := h
    rw [hc] at h3
    exact absurd h3 (lt_irrefl c)
  | s0 :: rest, c, c', nv, h, h1, h2, h3 => by
    by_cases hnv : nv ≤ s0.stop
    · have hm : segMatches nv s0 = true := by
        refine (segMatches_true_iff _ _).mpr ⟨?_, hnv⟩
        rw [h.1]
        exact h1
      exact ⟨s0, by simp [findSegment, List.find?_cons_of_pos _ hm],
        List.mem_cons_self _ _⟩
    · have hgt : s0.stop < nv := not_le.mp hnv
      obtain ⟨s, hfind, hmem⟩ :=
        chainFrom_find_exists h.2.2 (le_of_lt hgt) h2 (lt_of_lt_of_le hgt h2)
      have hm : ¬ segMatches nv s0 = true := by
        rw [segMatches_true_iff]
        rintro ⟨-, hcontra⟩
        exact absurd hcontra hnv
      refine ⟨s, ?_, List.mem_cons_of_mem _ hmem⟩
      simp only [findSegment] at hfind ⊢
      rw [List.find?_cons_of_neg _ hm, hfind]

lemma segLoop_color : ∀ (l : List SegmentRange) (mn mx c : ℚ) (s : ReferenceRingSegment),
    s ∈ (segLoop mn mx l c).1 → ∃ t ∈ l, s.color = t.color
  | [], mn, mx, c, s, hs => by simp [segLoop] at hs
  | t :: ts, mn, mx, c, s, hs => by
    by_cases hgt : max 0 (min 1 ((t.value - mn) / (mx - mn))) > c
    · simp only [segLoop, if_pos hgt] at hs
      rcases List.mem_cons.mp hs with rfl | hmem
      · exact ⟨t, List.mem_cons_self _ _, rfl⟩
      · obtain ⟨t', ht', hc⟩ := segLoop_color ts mn mx _ s hmem
        exact ⟨t', List.mem_cons_of_mem _ ht', hc⟩
    · simp only [segLoop, if_neg hgt] at hs
      obtain ⟨t', ht', hc⟩ := segLoop_color ts mn mx c s hs
      exact ⟨t', List.mem_cons_of_mem _ ht', hc⟩

lemma mem_of_getLast_some : ∀ (l : List SegmentRange) (a : SegmentRange),
    l.getLast? = some a → a ∈ l
  | [], a, h => by simp at h
  | [b], a, h => by
    simp at h
    simp [h]
  | b :: c :: rest, a, h => by
    rw [List.getLast?_cons_cons] at h
    exact List.mem_cons_of_mem _ (mem_of_getLast_some (c :: rest) a h)

lemma lastColor_of_none {l : List SegmentRange} (h : l.getLast? = none) :
    lastColor l = "limegreen" := by
  unfold lastColor
  rw [h]

lemma lastColor_of_some {l : List SegmentRange} {t : SegmentRange}
    (h : l.getLast? = some t) :
    lastColor l = if t.color = "" then "limegreen" else t.color := by
  unfold lastColor
  rw [h]

lemma convert_color (ts : List SegmentRange) (mn mx : ℚ) (s : ReferenceRingSegment)
    (hs : s ∈ convertThresholdsToSegments ts mn mx) :
    s.color = "limegreen" ∨ ∃ t ∈ ts, s.color = t.color := by
  match ts with
  | [] =>
    simp [convertThresholdsToSegments] at hs
    rw [hs]
    exact Or.inl rfl
  | t :: ts' =>
    simp only [convertThresholdsToSegments] at hs
    by_cases hlt :
        (segLoop mn mx (List.insertionSort (fun a b => a.value ≤ b.value) (t :: ts')) 0).2 < 1
    · rw [if_pos hlt] at hs
      rcases List.mem_append.mp hs with hmem | hmem
      · obtain ⟨t', ht', hc⟩ := segLoop_color _ mn mx 0 s hmem
        exact Or.inr ⟨t', (List.mem_insertionSort _).mp ht', hc⟩
      · have hseq : s = ⟨(segLoop mn mx
            (List.insertionSort (fun a b => a.value ≤ b.value) (t :: ts')) 0).2, 1,
            lastColor (List.insertionSort (fun a b => a.value ≤ b.value) (t :: ts'))⟩ := by
          simpa using hmem
        rw [hseq]
        rcases hgl : (List.insertionSort (fun a b => a.value ≤ b.value) (t :: ts')).getLast?
          with _ | t'
        · exact Or.inl (lastColor_of_none hgl)
        · by_cases hce : t'.color = ""
          · refine Or.inl ?_
            rw [show (⟨(segLoop mn mx
                (List.insertionSort (fun a b => a.value ≤ b.value) (t :: ts')) 0).2, 1,
                lastColor (List.insertionSort (fun a b => a.value ≤ b.value) (t :: ts'))⟩ :
                ReferenceRingSegment).color =
              lastColor (List.insertionSort (fun a b => a.value ≤ b.value) (t :: ts'))
              from rfl]
            rw [lastColor_of_some hgl, if_pos hce]
          · refine Or.inr ⟨t', (List.mem_insertionSort _).mp (mem_of_getLast_some _ _ hgl), ?_⟩
            rw [show (⟨(segLoop mn mx
                (List.insertionSort (fun a b => a.value ≤ b.value) (t :: ts')) 0).2, 1,
                lastColor (List.insertionSort (fun a b => a.value ≤ b.value) (t :: ts'))⟩ :
                ReferenceRingSegment).color =
              lastColor (List.insertionSort (fun a b => a.value ≤ b.value) (t :: ts'))
              from rfl]
            rw [lastColor_of_some hgl, if_neg hce]
    · rw [if_neg hlt] at hs
      obtain ⟨t', ht', hc⟩ := segLoop_color _ mn mx 0 s hs
      exact Or.inr ⟨t', (List.mem_insertionSort _).mp ht', hc⟩

lemma normalizedValue_nonneg (v mn mx : ℚ) : 0 ≤ normalizedValue v mn mx :=
  le_max_left _ _

lemma normalizedValue_le_one (v mn mx : ℚ) : normalizedValue v mn mx ≤ 1 :=
  max_le (by norm_num) (min_le_left _ _)

lemma valueAngle_between (v mn mx startRad endRad : ℚ) :
    min startRad endRad ≤ valueAngle v mn mx startRad endRad ∧
      valueAngle v mn mx startRad endRad ≤ max startRad endRad := by
  have h0 := normalizedValue_nonneg v mn mx
  have h1 := normalizedValue_le_one v mn mx
  unfold valueAngle
  rcases le_total startRad endRad with h | h
  · rw [min_eq_left h, max_eq_right h]
    constructor <;> nlinarith
  · rw [min_eq_right h, max_eq_left h]
    constructor <;> nlinarith

/-- C3: for every input value, including values outside `[min, max]`, given
`max > min`, the computed value angle
`startRad + clamp((value - min)/(max - min), 0, 1) * (endRad - startRad)`
lies within the closed interval between the start and end angles in radians. -/
theorem C3_value_angle_within_sweep (piA startAngle endAngle v mn mx : ℚ)
    (hdom : mn < mx) :
    min (degreesToRadians piA startAngle) (degreesToRadians piA endAngle) ≤
        valueAngle v mn mx (degreesToRadians piA startAngle)
          (degreesToRadians piA endAngle) ∧
      valueAngle v mn mx (degreesToRadians piA startAngle)
          (degreesToRadians piA endAngle) ≤
        max (degreesToRadians piA startAngle) (degreesToRadians piA endAngle) :=
  valueAngle_between v mn mx _ _

/-- Witness for C3 at `value = 150` outside the domain `[0, 100]`, with the
default sweep `-40°..220°` and a rational stand-in for `Math.PI`. -/
theorem C3_witness :
    (0:ℚ) < 100 ∧
      (min (degreesToRadians (157/50) (-40)) (degreesToRadians (157/50) 220) ≤
          valueAngle 150 0 100 (degreesToRadians (157/50) (-40))
            (degreesToRadians (157/50) 220) ∧
        valueAngle 150 0 100 (degreesToRadians (157/50) (-40))
            (degreesToRadians (157/50) 220) ≤
          max (degreesToRadians (157/50) (-40)) (degreesToRadians (157/50) 220)) :=
  ⟨by norm_num, C3_value_angle_within_sweep (157/50) (-40) 220 150 0 100 (by norm_num)⟩

/-- C4: with `transitionDuration = T > 0`, once the elapsed time reaches or
exceeds `T`, the tween progress clamps to 1 and the frame value equals the
target exactly (for any easing function fixing 1, as the default `easeQuadOut`
and every standard easing does). -/
theorem C4_tween_completes_exactly (startValue target elapsed T : ℚ)
    (easingFn : ℚ → ℚ) (hT : 0 < T) (he : T ≤ elapsed) (heasing : easingFn 1 = 1) :
    tweenProgress elapsed T = 1 ∧
      tweenFrameValue startValue target elapsed T easingFn = target := by
  have h1 : (1:ℚ) ≤ elapsed / T := (one_le_div hT).mpr he
  have hp : tweenProgress elapsed T = 1 := min_eq_right h1
  refine ⟨hp, ?_⟩
  rw [tweenFrameValue, hp, heasing, interpolateNumber]
  ring

/-- Witness for C4: duration 250ms, elapsed 300ms, tween from 0 to 10 under the
default `easeQuadOut` easing lands exactly on 10. -/
theorem C4_witness :
    (0:ℚ) < 250 ∧ (250:ℚ) ≤ 300 ∧ easeQuadOut 1 = 1 ∧
      (tweenProgress 300 250 = 1 ∧ tweenFrameValue 0 10 300 250 easeQuadOut = 10) :=
  ⟨by norm_num, by norm_num, by norm_num [easeQuadOut],
    C4_tween_completes_exactly 0 10 300 250 easeQuadOut (by norm_num) (by norm_num)
      (by norm_num [easeQuadOut])⟩

/-- C5 counterexample: at `max = min = 5` and `value = 5`, the normalization
expression evaluates (by JavaScript float semantics, `0/0 = NaN` and
`Math.min`/`Math.max` propagating `NaN`) to `NaN` — the code neither raises a
DomainError (the expression is a total, throw-free computation) nor produces
the fixed fallback normalized value 0. -/
theorem C5_counterexample :
    jsNormalizedValue 5 5 5 = JSNumber.nan ∧ JSNumber.nan ≠ JSNumber.num 0 :=
  ⟨by norm_num [jsNormalizedValue, jsDiv, jsMin, jsMax], fun h => nomatch h⟩

/-- C5 (amended): when `max == min`, value normalization is an unguarded
division; under JavaScript float semantics the clamped result is 1 for
`value > min` (division yields `+Infinity`), 0 for `value < min` (`-Infinity`),
and `NaN` for `value == min` (`0/0`); no DomainError is raised. -/
theorem C5_unguarded_normalization (v mn : ℚ) :
    jsNormalizedValue v mn mn =
      if mn < v then JSNumber.num 1
      else if v < mn then JSNumber.num 0
      else JSNumber.nan := by
  rcases lt_trichotomy mn v with h | h | h
  · have h1 : 0 < v - mn := sub_pos.mpr h
    simp [jsNormalizedValue, jsDiv, jsMin, jsMax, h, h1, sub_self]
  · simp [jsNormalizedValue, jsDiv, jsMin, jsMax, h, sub_self, lt_irrefl]
  · have h1 : v - mn < 0 := sub_neg.mpr h
    simp [jsNormalizedValue, jsDiv, jsMin, jsMax, h, h1, not_lt.mpr h1.le,
      not_lt.mpr h.le, sub_self]

/-- C8: with `transitionDuration = 0` the tween is bypassed: the displayed
value is the target value itself (the `transitionDuration > 0 ? tweenValue :
value` ternary picks `value` synchronously), and the animation effect's guard
`if (!transitionDuration) return` exits before any frame can be scheduled. -/
theorem C8_zero_duration_bypass (tweenValue value : ℚ) :
    animationValue 0 tweenValue value = value ∧ tweenEffectRuns 0 = false := by
  refine ⟨?_, ?_⟩
  · simp [animationValue]
  · simp [tweenEffectRuns]

/-- C9: for every `min` and `max`, the empty thresholds list yields the single
default full-range segment colored "limegreen". -/
theorem C9_empty_thresholds_default (mn mx : ℚ) :
    convertThresholdsToSegments [] mn mx = [⟨0, 1, "limegreen"⟩] := rfl

/-- C10: the center text renders `valueFormat(value)` for every present value
(including 0 and negative values — the guard tests `!== undefined` and
`!== null`, not truthiness) and renders the placeholder "--" exactly when the
value is `undefined` or `null` (modelled as `none`). -/
theorem C10_center_text (valueFormat : ℚ → String) (v : ℚ) :
    centerText (some v) valueFormat = valueFormat v ∧
      centerText none valueFormat = "--" :=
  ⟨rfl, rfl⟩

/-- C2: the duplicate-threshold list `[{50, "a"}, {50, "b"}]` on domain
`[0, 100]` produces exactly the two segments `[0, 1/2]` colored "a" and
`[1/2, 1]` colored "b": the second threshold is absorbed (it advances no
cursor), and the final gap-filling segment echoes the color of the last
threshold in sorted order. -/
theorem C2_duplicate_thresholds_absorbed :
    convertThresholdsToSegments [⟨50, "a"⟩, ⟨50, "b"⟩] 0 100 =
      [⟨0, 1/2, "a"⟩, ⟨1/2, 1, "b"⟩] := by
  norm_num [convertThresholdsToSegments, segLoop, lastColor, List.insertionSort,
    List.orderedInsert]
  decide

/-- C1: for every thresholds list and every domain with `max > min`,
`convertThresholdsToSegments` returns a non-empty segment list that partitions
`[0, 1]` exactly: the first segment starts at 0, the last ends at 1, each
segment's end equals the next segment's start, and every segment has start
strictly less than end. -/
theorem C1_buildSegments_partition (thresholds : List SegmentRange) (mn mx : ℚ)
    (hdom : mn < mx) (segs : List ReferenceRingSegment)
    (hsegs : segs = convertThresholdsToSegments thresholds mn mx) :
    segs ≠ [] ∧
      (∀ s, segs.head? = some s → s.start = 0) ∧
      (∀ s, segs.getLast? = some s → s.stop = 1) ∧
      (∀ i, ∀ hi1 : i + 1 < segs.length,
        (segs.get ⟨i, Nat.lt_of_succ_lt hi1⟩).stop = (segs.get ⟨i + 1, hi1⟩).start) ∧
      (∀ s ∈ segs, s.start < s.stop) := by
  subst hsegs
  have h := convert_chain thresholds mn mx
  exact ⟨chainFrom_ne_nil h (by norm_num), chainFrom_head_start h,
    chainFrom_getLast_stop h, chainFrom_adjacent h, chainFrom_mem_width h⟩

/-- Witness for C1 at the empty thresholds list on the domain `[0, 100]`. -/
theorem C1_witness :
    (0:ℚ) < 100 ∧
      (([⟨0, 1, "limegreen"⟩] : List ReferenceRingSegment) ≠ [] ∧
        (∀ s, ([⟨0, 1, "limegreen"⟩] : List ReferenceRingSegment).head? = some s →
          s.start = 0) ∧
        (∀ s, ([⟨0, 1, "limegreen"⟩] : List ReferenceRingSegment).getLast? = some s →
          s.stop = 1) ∧
        (∀ i, ∀ hi1 : i + 1 < ([⟨0, 1, "limegreen"⟩] : List ReferenceRingSegment).length,
          (List.get [⟨0, 1, "limegreen"⟩] ⟨i, Nat.lt_of_succ_lt hi1⟩).stop =
            (List.get [⟨0, 1, "limegreen"⟩] ⟨i + 1, hi1⟩).start) ∧
        (∀ s ∈ ([⟨0, 1, "limegreen"⟩] : List ReferenceRingSegment), s.start < s.stop)) :=
  ⟨by norm_num, C1_buildSegments_partition [] 0 100 (by norm_num) [⟨0, 1, "limegreen"⟩] rfl⟩

/-- C6: on every segment list produced by `convertThresholdsToSegments` with
`max > min`, the value-color lookup — `find` of the first segment with
`normalizedValue >= start && normalizedValue <= end`, inclusive on both ends —
selects the first segment at `normalizedValue = 0` (hence returns its color),
selects the last segment at `normalizedValue = 1` (hence returns its color),
and at a value sitting exactly on a shared boundary between two adjacent
segments selects the lower (earlier) segment, hence its color. -/
theorem C6_boundary_color_resolution (thresholds : List SegmentRange) (mn mx : ℚ)
    (hdom : mn < mx) (segs : List ReferenceRingSegment)
    (hsegs : segs = convertThresholdsToSegments thresholds mn mx) :
    findSegment 0 segs = segs.head? ∧
      findSegment 1 segs = segs.getLast? ∧
      ∀ i, ∀ hi1 : i + 1 < segs.length,
        findSegment ((segs.get ⟨i, Nat.lt_of_succ_lt hi1⟩).stop) segs =
          some (segs.get ⟨i, Nat.lt_of_succ_lt hi1⟩) := by
  subst hsegs
  have h := convert_chain thresholds mn mx
  have hne := chainFrom_ne_nil h (by norm_num)
  exact ⟨chainFrom_findSegment_start h hne, chainFrom_findSegment_one h hne,
    fun i hi1 => chainFrom_findSegment_boundary h i (Nat.lt_of_succ_lt hi1)⟩

/-- Witness for C6 on the segments of the single threshold `{60, "g"}` over
`[0, 100]`. -/
theorem C6_witness :
    (0:ℚ) < 100 ∧
      ([⟨0, 3/5, "g"⟩, ⟨3/5, 1, "g"⟩] : List ReferenceRingSegment) =
        convertThresholdsToSegments [⟨60, "g"⟩] 0 100 ∧
      (findSegment 0 [⟨0, 3/5, "g"⟩, ⟨3/5, 1, "g"⟩] =
          ([⟨0, 3/5, "g"⟩, ⟨3/5, 1, "g"⟩] : List ReferenceRingSegment).head? ∧
        findSegment 1 [⟨0, 3/5, "g"⟩, ⟨3/5, 1, "g"⟩] =
          ([⟨0, 3/5, "g"⟩, ⟨3/5, 1, "g"⟩] : List ReferenceRingSegment).getLast? ∧
        ∀ i, ∀ hi1 : i + 1 < ([⟨0, 3/5, "g"⟩, ⟨3/5, 1, "g"⟩] :
            List ReferenceRingSegment).length,
          findSegment ((List.get [⟨0, 3/5, "g"⟩, ⟨3/5, 1, "g"⟩]
              ⟨i, Nat.lt_of_succ_lt hi1⟩).stop) [⟨0, 3/5, "g"⟩, ⟨3/5, 1, "g"⟩] =
            some (List.get [⟨0, 3/5, "g"⟩, ⟨3/5, 1, "g"⟩] ⟨i, Nat.lt_of_succ_lt hi1⟩)) := by
  have hsegs : ([⟨0, 3/5, "g"⟩, ⟨3/5, 1, "g"⟩] : List ReferenceRingSegment) =
      convertThresholdsToSegments [⟨60, "g"⟩] 0 100 := by
    norm_num [convertThresholdsToSegments, segLoop, lastColor, List.insertionSort,
      List.orderedInsert]
    decide
  exact ⟨by norm_num, hsegs,
    C6_boundary_color_resolution [⟨60, "g"⟩] 0 100 (by norm_num) _ hsegs⟩

/-- C7 (amended): for every `normalizedValue` in `[0, 1]` and every segment
list produced by `convertThresholdsToSegments` with `max > min`, the lookup
for the first containing segment always succeeds; and provided no threshold
color is the empty string, the defensive "#999" fallback value is not
produced — the result is the found segment's color.  (Without the color
proviso the fallback can fire even though the lookup succeeded, because the
JavaScript `||` also treats an empty-string color as falsy; see the
counterexample.) -/
theorem C7_lookup_always_succeeds (thresholds : List SegmentRange) (mn mx : ℚ)
    (hdom : mn < mx) (nv : ℚ) (h0 : 0 ≤ nv) (h1 : nv ≤ 1)
    (hcolors : ∀ t ∈ thresholds, t.color ≠ "")
    (segs : List ReferenceRingSegment)
    (hsegs : segs = convertThresholdsToSegments thresholds mn mx) :
    ∃ s, findSegment nv segs = some s ∧ valueColor nv segs = s.color := by
  subst hsegs
  have h := convert_chain thresholds mn mx
  obtain ⟨s, hfind, hmem⟩ := chainFrom_find_exists h h0 h1 (by norm_num)
  refine ⟨s, hfind, ?_⟩
  have hc : s.color ≠ "" := by
    rcases convert_color thresholds mn mx s hmem with hg | ⟨t, ht, hct⟩
    · rw [hg]; decide
    · rw [hct]; exact hcolors t ht
  simp [valueColor, hfind, hc]

/-- Witness for C7 at `normalizedValue = 1/2` on the segments of the single
threshold `{60, "g"}` over `[0, 100]`. -/
theorem C7_witness :
    (0:ℚ) < 100 ∧ (0:ℚ) ≤ 1/2 ∧ (1/2:ℚ) ≤ 1 ∧
      (∀ t ∈ ([⟨60, "g"⟩] : List SegmentRange), t.color ≠ "") ∧
      ([⟨0, 3/5, "g"⟩, ⟨3/5, 1, "g"⟩] : List ReferenceRingSegment) =
        convertThresholdsToSegments [⟨60, "g"⟩] 0 100 ∧
      ∃ s, findSegment (1/2) [⟨0, 3/5, "g"⟩, ⟨3/5, 1, "g"⟩] = some s ∧
        valueColor (1/2) [⟨0, 3/5, "g"⟩, ⟨3/5, 1, "g"⟩] = s.color := by
  have hsegs : ([⟨0, 3/5, "g"⟩, ⟨3/5, 1, "g"⟩] : List ReferenceRingSegment) =
      convertThresholdsToSegments [⟨60, "g"⟩] 0 100 := by
    norm_num [convertThresholdsToSegments, segLoop, lastColor, List.insertionSort,
      List.orderedInsert]
    decide
  exact ⟨by norm_num, by norm_num, by norm_num, by decide, hsegs,
    C7_lookup_always_succeeds [⟨60, "g"⟩] 0 100 (by norm_num) (1/2) (by norm_num)
      (by norm_num) (by decide) _ hsegs⟩

/-- C7 counterexample: for the threshold list `[{100, ""}]` over `[0, 100]`
(a threshold whose color is the empty string), the produced segments are
`[{0, 1, ""}]`, the lookup at `normalizedValue = 0` succeeds — it finds the
segment `{0, 1, ""}` — and yet the value color is the defensive fallback
"#999", because JavaScript `||` treats the found empty-string color as falsy.
The fallback is therefore reachable under the claim's preconditions. -/
theorem C7_counterexample :
    convertThresholdsToSegments [⟨100, ""⟩] 0 100 = [⟨0, 1, ""⟩] ∧
      findSegment 0 [⟨0, 1, ""⟩] = some ⟨0, 1, ""⟩ ∧
      valueColor 0 [⟨0, 1, ""⟩] = "#999" ∧ ("" : String) ≠ "#999" := by
  refine ⟨?_, ?_, ?_, by decide⟩
  · norm_num [convertThresholdsToSegments, segLoop, lastColor, List.insertionSort,
      List.orderedInsert]
  · norm_num [findSegment, segMatches, List.find?]
  · norm_num [valueColor, findSegment, segMatches, List.find?]

end RadialGauge
